import Mathlib

set_option maxHeartbeats 1000000

/-!
Shallow embedding of `downloads-generation/data_mass_spec_benchmark/run_predictors.py`.

A missing-value matrix is a list of rows of booleans (`true` = the cell is
still missing / a 1 in the binary matrix).  Result-matrix cells are
`Option Int`: `none` models the NaN sentinel, `some v` a computed value.
-/

abbrev Mat := List (List Bool)

/-- A block `(x1, y1, x2, y2)`, all indices inclusive, rows `x1..x2` and
columns `y1..y2`, as returned by `blocks_of_ones`. -/
abbrev NBlock := Nat × Nat × Nat × Nat

def countTrue : List Bool → Nat
  | [] => 0
  | b :: bs => (if b then 1 else 0) + countTrue bs

def countOnes : Mat → Nat
  | [] => 0
  | row :: rest => countTrue row + countOnes rest

/-- Index of the first `true` in a boolean vector, if any. -/
def firstTrueIdx : List Bool → Option Nat
  | [] => none
  | b :: bs => if b then some 0 else (firstTrueIdx bs).map (· + 1)

/-- `numpy.unravel_index(arr.argmax(), arr.shape)` on a binary matrix with at
least one 1: the row-major first cell holding `true`. -/
def firstTrueCell : Mat → Option (Nat × Nat)
  | [] => none
  | row :: rest =>
    match firstTrueIdx row with
    | some c => some (0, c)
    | none => (firstTrueCell rest).map (fun rc => (rc.1 + 1, rc.2))

def matCell (m : Mat) (r c : Nat) : Bool := (m.getD r []).getD c false

def numCols (m : Mat) : Nat := (m.headD []).length

inductive BlocksErr where
  | assertFailed
  | outOfFuel
deriving Repr, DecidableEq

def firstFalseIdx (l : List Bool) : Option Nat := firstTrueIdx (l.map (fun b => !b))

/-- The column slice `arr[x1:, y1]`. -/
def colBelow (m : Mat) (x1 y1 : Nat) : List Bool :=
  (List.range (m.length - x1)).map (fun k => matCell m (x1 + k) y1)

/-- `down_stop = numpy.argmax(arr[x1:, y1] == 0) - 1`: the resulting row
extent `block[2]`.  When the slice has no zero, `argmax` is 0, `down_stop`
is -1 and the extent is the last row; a zero at offset 0 would trip the
source's `assert down_stop >= 0`. -/
def downStop (m : Mat) (x1 y1 : Nat) : Except BlocksErr Nat :=
  match firstFalseIdx (colBelow m x1 y1) with
  | none => .ok (m.length - 1)
  | some 0 => .error .assertFailed
  | some (k + 1) => .ok (x1 + k)

/-- `(arr[block[0] : block[2] + 1, i] == 1).all()`. -/
def colAllTrue (m : Mat) (x1 x2 c : Nat) : Bool :=
  (List.range (x2 + 1 - x1)).all (fun j => matCell m (x1 + j) c)

def rangeFrom (a b : Nat) : List Nat := (List.range (b - a)).map (fun i => a + i)

/-- `for i in range(y1, arr.shape[1]): if (arr[block[0]:block[2]+1, i] == 1).all():
block[3] = i` — the final value of `block[3]`.  Note the loop does NOT stop at
the first failing column: the last qualifying column wins. -/
def rightStop (m : Mat) (x1 x2 y1 : Nat) : Nat :=
  (rangeFrom y1 (numCols m)).foldl (fun b i => if colAllTrue m x1 x2 i then i else b) y1

/-- `(arr[block[0]:block[2]+1, block[1]:block[3]+1] == 1).all()` — the assert
before the block is zeroed out. -/
def rectAllTrue (m : Mat) (x1 y1 x2 y2 : Nat) : Bool :=
  (List.range (x2 + 1 - x1)).all (fun j =>
    (List.range (y2 + 1 - y1)).all (fun i => matCell m (x1 + j) (y1 + i)))

def clearRowRange : List Bool → Nat → Nat → Nat → List Bool
  | [], _, _, _ => []
  | b :: bs, c, y1, y2 =>
    (if y1 ≤ c ∧ c ≤ y2 then false else b) :: clearRowRange bs (c + 1) y1 y2

def clearRows : Mat → Nat → Nat → Nat → Nat → Nat → Mat
  | [], _, _, _, _, _ => []
  | row :: rest, r, x1, x2, y1, y2 =>
    (if x1 ≤ r ∧ r ≤ x2 then clearRowRange row 0 y1 y2 else row) ::
      clearRows rest (r + 1) x1 x2 y1 y2

/-- `arr[block[0]:block[2]+1, block[1]:block[3]+1] = 0`. -/
def clearRect (m : Mat) (x1 y1 x2 y2 : Nat) : Mat :=
  clearRows m 0 x1 x2 y1 y2

/-- The `while arr.sum() > 0` loop of `blocks_of_ones`, with a fuel bound:
`.error .outOfFuel` marks fuel exhaustion (shown below to be unreachable when
the fuel is the number of true cells), `.error .assertFailed` a failing
`assert` in the source. -/
def blocksAux : Nat → Mat → List NBlock → Except BlocksErr (List NBlock)
  | 0, m, acc =>
    match firstTrueCell m with
    | none => .ok acc.reverse
    | some _ => .error .outOfFuel
  | fuel + 1, m, acc =>
    match firstTrueCell m with
    | none => .ok acc.reverse
    | some (x1, y1) =>
      match downStop m x1 y1 with
      | .error e => .error e
      | .ok x2 =>
        let y2 := rightStop m x1 x2 y1
        if rectAllTrue m x1 y1 x2 y2 then
          blocksAux fuel (clearRect m x1 y1 x2 y2) ((x1, y1, x2, y2) :: acc)
        else .error .assertFailed

/-- `blocks_of_ones(arr)`: greedy extraction of rectangular blocks of 1s. -/
def blocks_of_ones (m : Mat) : Except BlocksErr (List NBlock) :=
  blocksAux (countOnes m) m []

/-- The same loop with the caller's array threaded through: the source does
`arr = arr.copy()` first and only ever writes to the copy, so the caller's
array rides along unmodified. -/
def blocksAuxWithCaller : Nat → Mat → Mat → List NBlock →
    Except BlocksErr (List NBlock) × Mat
  | 0, caller, m, acc =>
    match firstTrueCell m with
    | none => (.ok acc.reverse, caller)
    | some _ => (.error .outOfFuel, caller)
  | fuel + 1, caller, m, acc =>
    match firstTrueCell m with
    | none => (.ok acc.reverse, caller)
    | some (x1, y1) =>
      match downStop m x1 y1 with
      | .error e => (.error e, caller)
      | .ok x2 =>
        let y2 := rightStop m x1 x2 y1
        if rectAllTrue m x1 y1 x2 y2 then
          blocksAuxWithCaller fuel caller (clearRect m x1 y1 x2 y2)
            ((x1, y1, x2, y2) :: acc)
        else (.error .assertFailed, caller)

def blocksOfOnesWithCaller (arr : Mat) : Except BlocksErr (List NBlock) × Mat :=
  blocksAuxWithCaller (countOnes arr) arr arr []

lemma countTrue_clearRowRange_le : ∀ (row : List Bool) (c y1 y2 : Nat),
    countTrue (clearRowRange row c y1 y2) ≤ countTrue row := by
  intro row
  induction row with
  | nil => intro c y1 y2; simp [clearRowRange]
  | cons b bs ih =>
    intro c y1 y2
    have h1 := ih (c + 1) y1 y2
    by_cases h : y1 ≤ c ∧ c ≤ y2 <;>
      cases b <;> simp [clearRowRange, countTrue, h] <;> omega

lemma countTrue_clearRowRange_lt : ∀ (row : List Bool) (c p y1 y2 : Nat),
    row.getD p false = true → y1 ≤ c + p → c + p ≤ y2 →
    countTrue (clearRowRange row c y1 y2) < countTrue row := by
  intro row
  induction row with
  | nil => intro c p y1 y2 h _ _; simp [List.getD] at h
  | cons b bs ih =>
    intro c p y1 y2 hget h1 h2
    cases p with
    | zero =>
      have hb : b = true := by simpa using hget
      subst hb
      have hc : y1 ≤ c ∧ c ≤ y2 := by omega
      have hle := countTrue_clearRowRange_le bs (c + 1) y1 y2
      simp [clearRowRange, countTrue, hc]
      omega
    | succ q =>
      have hget' : bs.getD q false = true := by simpa using hget
      have hlt := ih (c + 1) q y1 y2 hget' (by omega) (by omega)
      by_cases hc : y1 ≤ c ∧ c ≤ y2 <;>
        cases b <;> simp [clearRowRange, countTrue, hc] <;> omega

lemma countOnes_clearRows_le : ∀ (rows : Mat) (r x1 x2 y1 y2 : Nat),
    countOnes (clearRows rows r x1 x2 y1 y2) ≤ countOnes rows := by
  intro rows
  induction rows with
  | nil => intro r x1 x2 y1 y2; simp [clearRows]
  | cons row rest ih =>
    intro r x1 x2 y1 y2
    have h1 := ih (r + 1) x1 x2 y1 y2
    have h2 := countTrue_clearRowRange_le row 0 y1 y2
    by_cases h : x1 ≤ r ∧ r ≤ x2 <;> simp [clearRows, countOnes, h] <;> omega

lemma countOnes_clearRows_lt : ∀ (rows : Mat) (r j x1 x2 y1 y2 : Nat),
    x1 ≤ r + j → r + j ≤ x2 → y1 ≤ y2 →
    ((rows.getD j []).getD y1 false = true) →
    countOnes (clearRows rows r x1 x2 y1 y2) < countOnes rows := by
  intro rows
  induction rows with
  | nil => intro r j x1 x2 y1 y2 _ _ _ h; simp [List.getD] at h
  | cons row rest ih =>
    intro r j x1 x2 y1 y2 hx1 hx2 hy h
    cases j with
    | zero =>
      have hget : row.getD y1 false = true := by simpa using h
      have hr : x1 ≤ r ∧ r ≤ x2 := by omega
      have hlt := countTrue_clearRowRange_lt row 0 y1 y1 y2 hget (by omega) (by omega)
      have hle := countOnes_clearRows_le rest (r + 1) x1 x2 y1 y2
      simp [clearRows, countOnes, hr]
      omega
    | succ q =>
      have h' : ((rest.getD q []).getD y1 false) = true := by simpa using h
      have hlt := ih (r + 1) q x1 x2 y1 y2 (by omega) (by omega) hy h'
      have hle := countTrue_clearRowRange_le row 0 y1 y2
      by_cases hr : x1 ≤ r ∧ r ≤ x2 <;> simp [clearRows, countOnes, hr] <;> omega

lemma countOnes_clearRect_lt (m : Mat) (x1 y1 x2 y2 : Nat)
    (hcell : matCell m x1 y1 = true) (hx : x1 ≤ x2) (hy : y1 ≤ y2) :
    countOnes (clearRect m x1 y1 x2 y2) < countOnes m := by
  have := countOnes_clearRows_lt m 0 x1 x1 x2 y1 y2 (by omega) (by omega) hy hcell
  simpa [clearRect] using this

lemma firstTrueIdx_getD : ∀ (l : List Bool) (c : Nat),
    firstTrueIdx l = some c → l.getD c false = true := by
  intro l
  induction l with
  | nil => intro c h; simp [firstTrueIdx] at h
  | cons b bs ih =>
    intro c h
    by_cases hb : b = true
    · subst hb
      simp [firstTrueIdx] at h
      subst h
      rfl
    · have hb' : b = false := by simpa using hb
      subst hb'
      simp [firstTrueIdx] at h
      obtain ⟨c', hc', rfl⟩ := h
      simpa using ih c' hc'

lemma firstTrueCell_cell : ∀ (m : Mat) (x y : Nat),
    firstTrueCell m = some (x, y) → matCell m x y = true := by
  intro m
  induction m with
  | nil => intro x y h; simp [firstTrueCell] at h
  | cons row rest ih =>
    intro x y h
    simp only [firstTrueCell] at h
    cases hf : firstTrueIdx row with
    | some c =>
      rw [hf] at h
      simp at h
      obtain ⟨rfl, rfl⟩ := h
      have := firstTrueIdx_getD row c hf
      simpa [matCell] using this
    | none =>
      rw [hf] at h
      rw [Option.map_eq_some'] at h
      obtain ⟨⟨x', y'⟩, hcell', heq⟩ := h
      obtain ⟨h1, h2⟩ := Prod.mk.inj heq
      subst h1; subst h2
      have := ih x' y' hcell'
      simpa [matCell] using this

lemma firstTrueCell_lt_length : ∀ (m : Mat) (x y : Nat),
    firstTrueCell m = some (x, y) → x < m.length := by
  intro m
  induction m with
  | nil => intro x y h; simp [firstTrueCell] at h
  | cons row rest ih =>
    intro x y h
    simp only [firstTrueCell] at h
    cases hf : firstTrueIdx row with
    | some c =>
      rw [hf] at h
      simp at h
      obtain ⟨rfl, rfl⟩ := h
      simp
    | none =>
      rw [hf] at h
      rw [Option.map_eq_some'] at h
      obtain ⟨⟨x', y'⟩, hcell', heq⟩ := h
      obtain ⟨h1, h2⟩ := Prod.mk.inj heq
      subst h1
      have := ih x' y' hcell'
      simp
      omega

lemma firstTrueIdx_of_countTrue_zero : ∀ (l : List Bool),
    countTrue l = 0 → firstTrueIdx l = none := by
  intro l
  induction l with
  | nil => intro _; rfl
  | cons b bs ih =>
    intro h
    cases b with
    | true => simp [countTrue] at h
    | false =>
      simp [countTrue] at h
      simp [firstTrueIdx, ih h]

lemma firstTrueCell_of_countOnes_zero : ∀ (m : Mat),
    countOnes m = 0 → firstTrueCell m = none := by
  intro m
  induction m with
  | nil => intro _; rfl
  | cons row rest ih =>
    intro h
    simp [countOnes] at h
    simp [firstTrueCell, firstTrueIdx_of_countTrue_zero row h.1, ih h.2]

lemma downStop_error_eq (m : Mat) (x1 y1 : Nat) (e : BlocksErr)
    (h : downStop m x1 y1 = .error e) : e = .assertFailed := by
  unfold downStop at h
  cases hf : firstFalseIdx (colBelow m x1 y1) with
  | none => rw [hf] at h; simp at h
  | some k =>
    rw [hf] at h
    cases k with
    | zero => simp at h; exact h.symm
    | succ q => simp at h

lemma downStop_ok_le (m : Mat) (x1 y1 x2 : Nat) (hlt : x1 < m.length)
    (h : downStop m x1 y1 = .ok x2) : x1 ≤ x2 := by
  unfold downStop at h
  cases hf : firstFalseIdx (colBelow m x1 y1) with
  | none =>
    rw [hf] at h
    simp at h
    omega
  | some k =>
    rw [hf] at h
    cases k with
    | zero => simp at h
    | succ q => simp at h; omega

lemma foldl_if_ge (p : Nat → Bool) (y1 : Nat) : ∀ (l : List Nat) (b : Nat),
    y1 ≤ b → (∀ i ∈ l, y1 ≤ i) →
    y1 ≤ l.foldl (fun acc i => if p i then i else acc) b := by
  intro l
  induction l with
  | nil => intro b hb _; simpa using hb
  | cons i rest ih =>
    intro b hb hmem
    simp only [List.foldl_cons]
    by_cases hp : p i = true
    · simp [hp]
      exact ih i (hmem i (by simp)) (fun j hj => hmem j (by simp [hj]))
    · simp [hp]
      exact ih b hb (fun j hj => hmem j (by simp [hj]))

lemma rightStop_ge (m : Mat) (x1 x2 y1 : Nat) : y1 ≤ rightStop m x1 x2 y1 := by
  unfold rightStop
  apply foldl_if_ge
  · exact Nat.le_refl y1
  · intro i hi
    simp [rangeFrom] at hi
    obtain ⟨k, _, rfl⟩ := hi
    omega

lemma blocksAux_ne_outOfFuel : ∀ (fuel : Nat) (m : Mat) (acc : List NBlock),
    countOnes m ≤ fuel → blocksAux fuel m acc ≠ .error .outOfFuel := by
  intro fuel
  induction fuel with
  | zero =>
    intro m acc hle
    have h0 : countOnes m = 0 := Nat.le_zero.mp hle
    simp [blocksAux, firstTrueCell_of_countOnes_zero m h0]
  | succ fuel ih =>
    intro m acc hle
    cases hftc : firstTrueCell m with
    | none => simp [blocksAux, hftc]
    | some xy =>
      obtain ⟨x1, y1⟩ := xy
      simp only [blocksAux, hftc]
      cases hds : downStop m x1 y1 with
      | error e =>
        have := downStop_error_eq m x1 y1 e hds
        subst this
        simp
      | ok x2 =>
        simp only
        by_cases hrect : rectAllTrue m x1 y1 x2 (rightStop m x1 x2 y1) = true
        · simp only [hrect, if_true]
          apply ih
          have hcell := firstTrueCell_cell m x1 y1 hftc
          have hxlt := firstTrueCell_lt_length m x1 y1 hftc
          have hx := downStop_ok_le m x1 y1 x2 hxlt hds
          have hy := rightStop_ge m x1 x2 y1
          have := countOnes_clearRect_lt m x1 y1 x2 (rightStop m x1 x2 y1) hcell hx hy
          omega
        · simp [hrect]

/-- C7: `blocks_of_ones` always terminates: clearing an iteration's rectangle
always clears at least the true seed cell, so the true-cell count strictly
decreases each completed iteration; consequently running the loop with a fuel
budget equal to the initial true-cell count never exhausts the fuel. -/
theorem blocks_of_ones_terminates :
    (∀ (m : Mat) (x1 y1 x2 y2 : Nat), firstTrueCell m = some (x1, y1) →
      x1 ≤ x2 → y1 ≤ y2 →
      countOnes (clearRect m x1 y1 x2 y2) < countOnes m) ∧
    (∀ m : Mat, blocks_of_ones m ≠ .error .outOfFuel) := by
  constructor
  · intro m x1 y1 x2 y2 hftc hx hy
    exact countOnes_clearRect_lt m x1 y1 x2 y2 (firstTrueCell_cell m x1 y1 hftc) hx hy
  · intro m
    exact blocksAux_ne_outOfFuel (countOnes m) m [] (Nat.le_refl _)

theorem blocks_of_ones_terminates_witness :
    countOnes (clearRect [[true]] 0 0 0 0) < countOnes [[true]] ∧
    blocks_of_ones [[true]] ≠ .error .outOfFuel :=
  ⟨blocks_of_ones_terminates.1 [[true]] 0 0 0 0 rfl (Nat.le_refl 0) (Nat.le_refl 0),
   blocks_of_ones_terminates.2 [[true]]⟩

/-- C1: the exact-cover contract does not hold for every boolean matrix: on
`[[1, 0, 1]]` the rightward extension scans past the gap at column 1, keeps
the later all-true column 2, and the source's own assertion
`(arr[...] == 1).all()` fails, so the function raises instead of returning a
cover. -/
theorem blocks_of_ones_assertion_failure :
    blocks_of_ones [[true, false, true]] = .error .assertFailed := rfl

lemma blocksAuxWithCaller_eq : ∀ (fuel : Nat) (caller m : Mat) (acc : List NBlock),
    blocksAuxWithCaller fuel caller m acc = (blocksAux fuel m acc, caller) := by
  intro fuel
  induction fuel with
  | zero =>
    intro caller m acc
    simp only [blocksAuxWithCaller, blocksAux]
    cases firstTrueCell m <;> rfl
  | succ fuel ih =>
    intro caller m acc
    cases hftc : firstTrueCell m with
    | none => simp only [blocksAuxWithCaller, blocksAux, hftc]
    | some xy =>
      obtain ⟨x1, y1⟩ := xy
      cases hds : downStop m x1 y1 with
      | error e => simp only [blocksAuxWithCaller, blocksAux, hftc, hds]
      | ok x2 =>
        by_cases hrect : rectAllTrue m x1 y1 x2 (rightStop m x1 x2 y1) = true
        · simp only [blocksAuxWithCaller, blocksAux, hftc, hds, hrect, if_true]
          exact ih caller _ _
        · simp [blocksAuxWithCaller, blocksAux, hftc, hds, hrect]

/-- C8: `blocks_of_ones` never modifies its input: the source copies the
array on entry and mutates only the copy, so the caller's matrix after the
call equals the matrix before the call, and the result is the same as the
pure function's. -/
theorem blocks_of_ones_input_unchanged (arr : Mat) :
    (blocksOfOnesWithCaller arr).2 = arr ∧
    (blocksOfOnesWithCaller arr).1 = blocks_of_ones arr := by
  unfold blocksOfOnesWithCaller blocks_of_ones
  rw [blocksAuxWithCaller_eq]
  exact ⟨rfl, rfl⟩

/-- `int(math.ceil(a / b))` for nonnegative integers (exact ceiling). -/
def cdiv (a b : Nat) : Nat := (a + b - 1) / b

inductive SplitErr where
  | zeroSections
deriving Repr, DecidableEq

/-- The section sizes used by `numpy.array_split(l, n)`: `len % n` parts of
size `len / n + 1` followed by parts of size `len / n`, computed by peeling
off `ceil(len / n)` at each step (see `splitSizes_eq_numpy` below). -/
def splitSizes : Nat → Nat → List Nat
  | _, 0 => []
  | len, n + 1 => cdiv len (n + 1) :: splitSizes (len - cdiv len (n + 1)) n

def takeChunks : List α → List Nat → List (List α)
  | _, [] => []
  | l, s :: ss => l.take s :: takeChunks (l.drop s) ss

/-- `numpy.array_split(l, n)`; `n = 0` raises
`ValueError: number sections must be larger than 0.` -/
def array_split (l : List α) (n : Nat) : Except SplitErr (List (List α)) :=
  if n = 0 then .error .zeroSections else .ok (takeChunks l (splitSizes l.length n))

lemma cdiv_eq (a b : Nat) (hb : 0 < b) :
    cdiv a b = a / b + if a % b = 0 then 0 else 1 := by
  unfold cdiv
  have h1 : a + b - 1 = a + (b - 1) := by omega
  rw [h1, Nat.add_div hb]
  have h2 : (b - 1) / b = 0 := Nat.div_eq_of_lt (by omega)
  have h3 : (b - 1) % b = b - 1 := Nat.mod_eq_of_lt (by omega)
  have h4 : a % b < b := Nat.mod_lt _ hb
  rw [h2, h3]
  by_cases h : a % b = 0 <;> simp [h] <;> omega

/-- The recursive size computation coincides with numpy's documented sizes:
`len % n` sections of `len / n + 1` followed by sections of `len / n`. -/
lemma splitSizes_eq_numpy : ∀ (n len : Nat),
    splitSizes len n =
      (List.range n).map (fun i => if i < len % n then len / n + 1 else len / n) := by
  intro n
  induction n with
  | zero => intro len; simp [splitSizes]
  | succ n ih =>
    intro len
    have hn1 : 0 < n + 1 := Nat.succ_pos n
    have hq := Nat.div_add_mod len (n + 1)
    have hmul : (n + 1) * (len / (n + 1)) = (len / (n + 1)) * n + len / (n + 1) := by
      ring
    have hmodlt : len % (n + 1) < n + 1 := Nat.mod_lt _ hn1
    rw [List.range_succ_eq_map]
    simp only [splitSizes, List.map_cons, List.map_map]
    by_cases hr : len % (n + 1) = 0
    · have hceil : cdiv len (n + 1) = len / (n + 1) := by
        rw [cdiv_eq len (n + 1) hn1, hr]; simp
      have hlen' : len - cdiv len (n + 1) = (len / (n + 1)) * n := by
        rw [hceil]; omega
      rw [hlen', ih, hceil]
      have hdvd : ((len / (n + 1)) * n) % n = 0 := by
        simp [Nat.mul_mod_left]
      congr 1
      · simp [hr]
      · rcases Nat.eq_zero_or_pos n with hn0 | hn0
        · subst hn0; simp
        · have hdiv : ((len / (n + 1)) * n) / n = len / (n + 1) :=
            Nat.mul_div_cancel _ hn0
          apply List.map_congr_left
          intro i _
          simp [hdvd, hdiv, hr]
    · have hrpos : 0 < len % (n + 1) := Nat.pos_of_ne_zero hr
      have hnpos : 0 < n := by omega
      have hceil : cdiv len (n + 1) = len / (n + 1) + 1 := by
        rw [cdiv_eq len (n + 1) hn1]; simp [hr]
      have hlen' : len - cdiv len (n + 1) =
          (len / (n + 1)) * n + (len % (n + 1) - 1) := by
        rw [hceil]; omega
      have hmod' : ((len / (n + 1)) * n + (len % (n + 1) - 1)) % n =
          len % (n + 1) - 1 := by
        rw [Nat.mul_comm (len / (n + 1)) n, Nat.mul_add_mod]
        exact Nat.mod_eq_of_lt (by omega)
      have hdiv' : ((len / (n + 1)) * n + (len % (n + 1) - 1)) / n =
          len / (n + 1) := by
        have h0 : (len % (n + 1) - 1) / n = 0 := Nat.div_eq_of_lt (by omega)
        rw [Nat.mul_comm (len / (n + 1)) n, Nat.mul_add_div hnpos, h0]
        omega
      rw [hlen', ih, hceil]
      congr 1
      · simp [hrpos]
      · apply List.map_congr_left
        intro i _
        simp only [Function.comp_apply]
        rw [hmod', hdiv']
        by_cases hi : i < len % (n + 1) - 1
        · rw [if_pos hi, if_pos (by omega)]
        · rw [if_neg hi, if_neg (by omega)]

lemma splitSizes_length : ∀ (n len : Nat), (splitSizes len n).length = n := by
  intro n
  induction n with
  | zero => intro len; rfl
  | succ n ih => intro len; simp [splitSizes, ih]

lemma cdiv_le_self (len n : Nat) (hn : 0 < n) : cdiv len n ≤ len := by
  unfold cdiv
  have h1 : len ≤ len * n := Nat.le_mul_of_pos_right len hn
  have h3 : (len + 1) * n = len * n + n := by ring
  have h2 : (len + n - 1) / n < len + 1 :=
    (Nat.div_lt_iff_lt_mul hn).mpr (by omega)
  omega

lemma splitSizes_sum : ∀ (n len : Nat), 0 < n → (splitSizes len n).sum = len := by
  intro n
  induction n with
  | zero => intro len h; omega
  | succ n ih =>
    intro len _
    rcases Nat.eq_zero_or_pos n with hn0 | hn0
    · subst hn0
      simp [splitSizes, cdiv]
    · have hle := cdiv_le_self len (n + 1) (Nat.succ_pos n)
      simp [splitSizes, ih (len - cdiv len (n + 1)) hn0]
      omega

lemma takeChunks_length : ∀ (ss : List Nat) (l : List α),
    (takeChunks l ss).length = ss.length := by
  intro ss
  induction ss with
  | nil => intro l; rfl
  | cons s ss ih => intro l; simp [takeChunks, ih]

lemma takeChunks_join : ∀ (ss : List Nat) (l : List α),
    (takeChunks l ss).join = l.take ss.sum := by
  intro ss
  induction ss with
  | nil => intro l; simp [takeChunks]
  | cons s ss ih =>
    intro l
    simp only [takeChunks, List.join_cons, ih, List.sum_cons]
    rw [List.take_add]

lemma array_split_ok (l : List α) (n : Nat) (hn : 0 < n) :
    array_split l n =
      .ok (takeChunks l (splitSizes l.length n)) := by
  simp [array_split, Nat.pos_iff_ne_zero.mp hn]

/-- Python slice `l[i : j + 1]` (inclusive end `j`). -/
def sliceIncl (l : List α) (i j : Nat) : List α := (l.drop i).take (j + 1 - i)

/-- The fresh-run peptide chunking in `run`:
`num_chunks = int(math.ceil(len(peptides) / args.chunk_size))` followed by
`numpy.array_split(peptides, num_chunks)`. -/
def fresh_peptide_chunks (peptides : List Nat) (chunk_size : Nat) :
    Except SplitErr (List (List Nat)) :=
  array_split peptides (cdiv peptides.length chunk_size)

/-- The fresh-run work items: every chunk is paired with the full allele
list. -/
def fresh_work_items (alleles peptides : List Nat) (chunk_size : Nat) :
    Except SplitErr (List (List Nat × List Nat)) :=
  (fresh_peptide_chunks peptides chunk_size).map (List.map (fun ch => (alleles, ch)))

/-- The reuse-run work-item generation in `run`: for each block,
`block_alleles = is_null_matrix.columns[col_index1 : col_index2 + 1]`,
`block_peptides = result_df.index[row_index1 : row_index2 + 1]`,
`num_chunks = int(math.ceil(len(block_peptides) / args.chunk_size))`, and
then `peptide_chunks = numpy.array_split(peptides, num_chunks)` — note the
source splits the FULL `peptides` array here, not `block_peptides`. -/
def reuse_work_items (peptides alleles : List Nat) (blocks : List NBlock)
    (chunk_size : Nat) : Except SplitErr (List (List Nat × List Nat)) :=
  blocks.foldlM
    (fun acc b =>
      match b with
      | (row_index1, col_index1, row_index2, col_index2) =>
        let block_alleles := sliceIncl alleles col_index1 col_index2
        let block_peptides := sliceIncl peptides row_index1 row_index2
        let num_chunks := cdiv block_peptides.length chunk_size
        (array_split peptides num_chunks).map
          (fun chunks => acc ++ chunks.map (fun ch => (block_alleles, ch))))
    []

/-- C5 (amended part): on a fresh run with at least one peptide and a positive
chunk size, the produced chunks concatenate back to the peptide sequence (so
they are contiguous, cover each peptide exactly once, in order) and number
exactly `ceil(N / C)`. -/
theorem fresh_chunks_partition (peptides : List Nat) (C : Nat)
    (hN : 0 < peptides.length) (hC : 0 < C) :
    ∃ cs, fresh_peptide_chunks peptides C = .ok cs ∧
      cs.join = peptides ∧ cs.length = cdiv peptides.length C := by
  have hnc : 0 < cdiv peptides.length C := by
    unfold cdiv
    have : C ≤ peptides.length + C - 1 := by omega
    have := (Nat.le_div_iff_mul_le hC).mpr (by omega : 1 * C ≤ peptides.length + C - 1)
    omega
  refine ⟨takeChunks peptides (splitSizes peptides.length (cdiv peptides.length C)),
    ?_, ?_, ?_⟩
  · unfold fresh_peptide_chunks
    exact array_split_ok _ _ hnc
  · rw [takeChunks_join, splitSizes_sum _ _ hnc, List.take_length]
  · rw [takeChunks_length, splitSizes_length]

theorem fresh_chunks_partition_witness :
    ∃ cs, fresh_peptide_chunks [3, 1, 2] 2 = .ok cs ∧
      cs.join = [3, 1, 2] ∧ cs.length = cdiv (List.length [3, 1, 2]) 2 :=
  fresh_chunks_partition [3, 1, 2] 2 (by decide) (by decide)

/-- C5 (counterexample): with zero peptides the code does not produce zero
chunks; `numpy.array_split(peptides, 0)` raises
`ValueError: number sections must be larger than 0.`, aborting the run. -/
theorem fresh_chunks_empty_errors :
    fresh_peptide_chunks [] 10 = .error .zeroSections ∧
    fresh_peptide_chunks [] 10 ≠ .ok [] :=
  ⟨rfl, fun h => nomatch h⟩

/-- C2: on a reuse run the block's work items do NOT cover just the block's
peptide range: with peptides `[10, 20]`, one allele column, and reused data
complete for the first peptide only (missing-matrix `[[0], [1]]`, giving the
single block `(1, 0, 1, 0)`), the generated work item's peptide list is the
full `[10, 20]`, although the block's own peptide slice is just `[20]` —
the source splits `peptides`, not `block_peptides`. -/
theorem reuse_work_items_cover_all_peptides :
    blocks_of_ones [[false], [true]] = .ok [(1, 0, 1, 0)] ∧
    reuse_work_items [10, 20] [7] [(1, 0, 1, 0)] 100 = .ok [([7], [10, 20])] ∧
    sliceIncl [10, 20] 1 1 = [20] :=
  ⟨rfl, rfl, rfl⟩

/-- A work item: `{'alleles': ..., 'peptides': ..., 'work_item_num': ...}`.
Peptides and alleles are identified by opaque ids. -/
structure WorkItem where
  alleles : List Nat
  peptides : List Nat
  num : Nat
deriving Repr, DecidableEq

/-- `for (i, work_item) in enumerate(work_items): work_item["work_item_num"] = i`. -/
def numberItems (raw : List (List Nat × List Nat)) : List WorkItem :=
  raw.enum.map (fun p => ⟨p.2.1, p.2.2, p.1⟩)

/-- `sorted(work_items, key=lambda d: len(d['peptides']))` (stable ascending
sort by peptide count). -/
def sortWorkItems (l : List WorkItem) : List WorkItem :=
  l.insertionSort (fun a b => a.peptides.length ≤ b.peptides.length)

def taskPeptides (t : List WorkItem) : Nat := (t.map (fun w => w.peptides.length)).sum

/-- The packing loop of `run`: while the next (sorted) work item still fits
strictly below `chunk_size` together with the current task's peptide count it
is appended to the current task, otherwise a new task is started.  `doneRev`
holds the finished tasks in reverse order, `cur` the current task's items in
reverse order, `t` is `peptides_in_last_task`. -/
def packAux (C : Nat) : List WorkItem → List (List WorkItem) → List WorkItem → Nat →
    List (List WorkItem)
  | [], doneRev, cur, _ => (cur.reverse :: doneRev).reverse
  | w :: ws, doneRev, cur, t =>
    if w.peptides.length + t < C then
      packAux C ws doneRev (w :: cur) (t + w.peptides.length)
    else
      packAux C ws (cur.reverse :: doneRev) [w] w.peptides.length

/-- Combine work items into tasks (the `tasks` list at the end of the loop).
With no work items the loop body never runs and `tasks` stays empty. -/
def packTasks (C : Nat) (items : List WorkItem) : List (List WorkItem) :=
  match sortWorkItems items with
  | [] => []
  | w :: ws => packAux C ws [] [w] w.peptides.length

lemma taskPeptides_reverse (t : List WorkItem) :
    taskPeptides t.reverse = taskPeptides t := by
  simp [taskPeptides, List.map_reverse, List.sum_reverse]

lemma packAux_bound (C : Nat) : ∀ (ws : List WorkItem)
    (doneRev : List (List WorkItem)) (cur : List WorkItem) (t : Nat),
    t = taskPeptides cur →
    (t < C ∨ ∃ w, cur = [w] ∧ C ≤ w.peptides.length) →
    (∀ d ∈ doneRev, taskPeptides d < C ∨ ∃ w, d = [w] ∧ C ≤ w.peptides.length) →
    ∀ tk ∈ packAux C ws doneRev cur t,
      taskPeptides tk < C ∨ ∃ w, tk = [w] ∧ C ≤ w.peptides.length := by
  intro ws
  induction ws with
  | nil =>
    intro doneRev cur t ht hQ hdone tk htk
    rw [packAux, List.mem_reverse] at htk
    rcases List.mem_cons.mp htk with rfl | hmem
    · rcases hQ with hlt | ⟨w, rfl, hw⟩
      · left
        rw [taskPeptides_reverse]
        omega
      · right
        exact ⟨w, by simp, hw⟩
    · exact hdone tk hmem
  | cons w ws ih =>
    intro doneRev cur t ht hQ hdone tk htk
    by_cases hc : w.peptides.length + t < C
    · refine ih doneRev (w :: cur) (t + w.peptides.length) ?_ ?_ hdone tk ?_
      · simp [taskPeptides] at ht ⊢
        omega
      · left; omega
      · rw [packAux, if_pos hc] at htk
        exact htk
    · refine ih (cur.reverse :: doneRev) [w] w.peptides.length ?_ ?_ ?_ tk ?_
      · simp [taskPeptides]
      · by_cases hw : w.peptides.length < C
        · left; exact hw
        · right; exact ⟨w, rfl, by omega⟩
      · intro d hd
        rcases List.mem_cons.mp hd with rfl | hmem
        · rcases hQ with hlt | ⟨w', rfl, hw'⟩
          · left
            rw [taskPeptides_reverse]
            omega
          · right
            exact ⟨w', by simp, hw'⟩
        · exact hdone d hmem
      · rw [packAux, if_neg hc] at htk
        exact htk

/-- C4: every packed task's total peptide count is below the chunk size,
except that a task may reach or exceed it only as a singleton whose lone work
item already has at least `chunk_size` peptides. -/
theorem task_packing_bound (items : List WorkItem) (C : Nat) :
    ∀ tk ∈ packTasks C items,
      taskPeptides tk < C ∨ ∃ w, tk = [w] ∧ C ≤ w.peptides.length := by
  intro tk htk
  unfold packTasks at htk
  cases hs : sortWorkItems items with
  | nil =>
    rw [hs] at htk
    simp at htk
  | cons w ws =>
    rw [hs] at htk
    refine packAux_bound C ws [] [w] w.peptides.length ?_ ?_ ?_ tk htk
    · simp [taskPeptides]
    · by_cases hw : w.peptides.length < C
      · left; exact hw
      · right; exact ⟨w, rfl, by omega⟩
    · intro d hd
      simp at hd

theorem task_packing_bound_witness :
    taskPeptides [⟨[], [1, 2, 3], 0⟩] < 2 ∨
      ∃ w, [(⟨[], [1, 2, 3], 0⟩ : WorkItem)] = [w] ∧ 2 ≤ w.peptides.length :=
  task_packing_bound [⟨[], [1, 2, 3], 0⟩] 2 [⟨[], [1, 2, 3], 0⟩] (by decide)

lemma packAux_join (C : Nat) : ∀ (ws : List WorkItem)
    (doneRev : List (List WorkItem)) (cur : List WorkItem) (t : Nat),
    (packAux C ws doneRev cur t).join =
      doneRev.reverse.join ++ cur.reverse ++ ws := by
  intro ws
  induction ws with
  | nil =>
    intro doneRev cur t
    rw [packAux]
    simp [List.reverse_cons, List.join_append]
  | cons w ws ih =>
    intro doneRev cur t
    by_cases hc : w.peptides.length + t < C
    · rw [packAux, if_pos hc, ih]
      simp [List.reverse_cons, List.append_assoc]
    · rw [packAux, if_neg hc, ih]
      simp [List.reverse_cons, List.join_append, List.append_assoc]

lemma packTasks_join (C : Nat) (items : List WorkItem) :
    (packTasks C items).join = sortWorkItems items := by
  unfold packTasks
  cases hs : sortWorkItems items with
  | nil => simp
  | cons w ws =>
    rw [packAux_join]
    simp

lemma packAux_ne_nil (C : Nat) : ∀ (ws : List WorkItem)
    (doneRev : List (List WorkItem)) (cur : List WorkItem) (t : Nat),
    cur ≠ [] → (∀ d ∈ doneRev, d ≠ []) →
    ∀ tk ∈ packAux C ws doneRev cur t, tk ≠ [] := by
  intro ws
  induction ws with
  | nil =>
    intro doneRev cur t hcur hdone tk htk
    rw [packAux, List.mem_reverse] at htk
    rcases List.mem_cons.mp htk with rfl | hmem
    · simpa using hcur
    · exact hdone tk hmem
  | cons w ws ih =>
    intro doneRev cur t hcur hdone tk htk
    by_cases hc : w.peptides.length + t < C
    · rw [packAux, if_pos hc] at htk
      exact ih doneRev (w :: cur) _ (by simp) hdone tk htk
    · rw [packAux, if_neg hc] at htk
      refine ih (cur.reverse :: doneRev) [w] _ (by simp) ?_ tk htk
      intro d hd
      rcases List.mem_cons.mp hd with rfl | hmem
      · simpa using hcur
      · exact hdone d hmem

/-- C9: work items receive the sequential indices `0..n-1` before packing, the
packed tasks' contents are a permutation of the work items (each item lands in
exactly one task exactly once), and no task is empty. -/
theorem work_item_partition (raw : List (List Nat × List Nat)) (C : Nat) :
    ((numberItems raw).map (fun w => w.num) = List.range raw.length) ∧
    ((packTasks C (numberItems raw)).join.Perm (numberItems raw)) ∧
    (∀ tk ∈ packTasks C (numberItems raw), tk ≠ []) := by
  refine ⟨?_, ?_, ?_⟩
  · unfold numberItems
    rw [List.map_map]
    exact List.enum_map_fst raw
  · rw [packTasks_join]
    exact List.perm_insertionSort _ (numberItems raw)
  · intro tk htk
    unfold packTasks at htk
    cases hs : sortWorkItems (numberItems raw) with
    | nil => rw [hs] at htk; simp at htk
    | cons w ws =>
      rw [hs] at htk
      refine packAux_ne_nil C ws [] [w] _ (by simp) ?_ tk htk
      intro d hd
      simp at hd

theorem work_item_partition_witness :
    ((numberItems [([1], [5, 6])]).map (fun w => w.num) = List.range 1) ∧
    ([(⟨[1], [5, 6], 0⟩ : WorkItem)] ≠ []) :=
  ⟨(work_item_partition [([1], [5, 6])] 3).1,
   (work_item_partition [([1], [5, 6])] 3).2.2 [⟨[1], [5, 6], 0⟩] (by decide)⟩

/-- An in-memory result matrix (`result_df`): a row index of peptide ids and
one `(column id, values)` entry per column, each value list aligned with the
index.  `none` is the NaN sentinel. -/
structure ResultDf where
  index : List Nat
  columns : List (Nat × List (Option Int))
deriving Repr, DecidableEq

/-- First-match association lookup (dict / first matching manifest row). -/
def alookup {β : Type} (k : Nat) : List (Nat × β) → Option β
  | [] => none
  | e :: es => if e.1 = k then some e.2 else alookup k es

/-- Value attached to row label `r` by the label/value lists, first match
first (labels are unique in the source). -/
def lookupPred : List Nat → List (Option Int) → Nat → Option (Option Int)
  | l :: ls, p :: ps, r => if l = r then some p else lookupPred ls ps r
  | _, _, _ => none

/-- `df.loc[labels, col] = preds` restricted to one column's value list:
each row whose label occurs in `labels` takes the corresponding entry of
`preds`, other rows keep their value. -/
def assignVals : List Nat → List (Option Int) → List Nat → List (Option Int) →
    List (Option Int)
  | r :: rs, v :: vs, labels, preds =>
    (match lookupPred labels preds r with
     | some nv => nv
     | none => v) :: assignVals rs vs labels preds
  | _, _, _, _ => []

/-- `df.loc[labels, c] = preds` on the whole frame. -/
def locAssign (df : ResultDf) (labels : List Nat) (c : Nat)
    (preds : List (Option Int)) : ResultDf :=
  { df with
    columns := df.columns.map (fun cv =>
      if cv.1 = c then (cv.1, assignVals df.index cv.2 labels preds) else cv) }

/-- `df.at[r, c]`: `none` when the column or row label is absent. -/
def cellValue (df : ResultDf) (c r : Nat) : Option (Option Int) :=
  (alookup c df.columns).bind (fun vals => lookupPred df.index vals r)

inductive LoadErr where
  | missingPeptides
  | missingManifest
  | missingColumnFile
deriving Repr, DecidableEq

/-- One prior-result directory as seen by `load_results` and the reuse loop:
`name` is the argument string (an empty string is skipped outright), `present`
is `os.path.exists(dirname)`, a `none` file stands for a missing or unreadable
file, and `files` maps a manifest `path` to the stored array. -/
structure StoreDir where
  name : String
  present : Bool
  peptidesFile : Option (List Nat)
  manifestFile : Option (List (Nat × Nat))
  files : List (Nat × List (Option Int))
deriving Repr

/-- `value[mask]`: keep the entries of `value` whose peptide is in `keep`. -/
def maskFilterVals : List Nat → List (Option Int) → List Nat → List (Option Int)
  | p :: ps, v :: vs, keep =>
    if keep.contains p then v :: maskFilterVals ps vs keep
    else maskFilterVals ps vs keep
  | _, _, _ => []

/-- The per-manifest-row load loop of `load_results`: read each column file
(`numpy.load`, an absent file raises), mask it when merging into an existing
frame, and assign it at the masked peptide labels. -/
def loadFold (files : List (Nat × List (Option Int))) (peptides : List Nat)
    (maskIdx : Option (List Nat)) : ResultDf → List (Nat × Nat) →
    Except LoadErr ResultDf
  | rdf, [] => .ok rdf
  | rdf, (c, p) :: rest =>
    match alookup p files with
    | none => .error .missingColumnFile
    | some value =>
      match maskIdx with
      | none => loadFold files peptides none (locAssign rdf peptides c value) rest
      | some idx =>
        loadFold files peptides (some idx)
          (locAssign rdf (peptides.filter (fun q => idx.contains q)) c
            (maskFilterVals peptides value idx)) rest

/-- `load_results(dirname, result_df)`: reads `peptides.csv` and `alleles.csv`
(either being missing or unreadable raises), then loads every referenced
column file.  With no target frame a fresh NaN frame over the stored peptides
and manifest columns is built; with a target frame only manifest columns
present in the target and only stored peptides present in the target's index
are transferred. -/
def load_results (d : StoreDir) (target : Option ResultDf) :
    Except LoadErr ResultDf :=
  match d.peptidesFile with
  | none => .error .missingPeptides
  | some peptides =>
    match d.manifestFile with
    | none => .error .missingManifest
    | some manifest =>
      match target with
      | none =>
        let rdf0 : ResultDf :=
          { index := peptides,
            columns := manifest.map
              (fun cp => (cp.1, peptides.map (fun _ => (none : Option Int)))) }
        loadFold d.files peptides none rdf0 manifest
      | some rdf =>
        let manifest' := manifest.filter
          (fun cp => (rdf.columns.map Prod.fst).contains cp.1)
        loadFold d.files peptides (some rdf.index) rdf manifest'

/-- The reuse loop of `run` over `args.reuse_predictions`: empty strings are
ignored, a directory that does not exist is skipped with a warning
(the returned string list collects the skipped names), an existing directory
is loaded with `load_results` and any load failure propagates, aborting the
run. -/
def reuseLoop : List StoreDir → ResultDf → Except LoadErr ResultDf × List String
  | [], rdf => (.ok rdf, [])
  | d :: ds, rdf =>
    if d.name = "" then reuseLoop ds rdf
    else if d.present then
      match load_results d (some rdf) with
      | .error e => (.error e, [])
      | .ok rdf' => reuseLoop ds rdf'
    else
      match reuseLoop ds rdf with
      | (res, ws) => (res, d.name :: ws)

/-- `write_col(col)`: `numpy.savez(out_path, result_df[col].values)` — the
stored file holds the column's value array (the path is the column id under
the identity sanitization of the model). -/
def write_col (df : ResultDf) (c : Nat) : Nat × List (Option Int) :=
  (c, (alookup c df.columns).getD [])

/-- The on-disk store after `run` writes `peptides.csv`, `alleles.csv` and
every column via `write_col`. -/
def storeOf (df : ResultDf) : StoreDir :=
  { name := "out",
    present := true,
    peptidesFile := some df.index,
    manifestFile := some (df.columns.map (fun cv => (cv.1, cv.1))),
    files := (df.columns.map Prod.fst).map (fun c => write_col df c) }

inductive MergeErr where
  | badWorkItemIndex
deriving Repr, DecidableEq

/-- One merge step of the result loop in `run`:
`for (col, predictions) in col_to_predictions.items():
result_df.loc[work_items[work_item_num]['peptides'], col] = predictions`. -/
def mergeOne (work_items : List WorkItem) (df : ResultDf) (work_item_num : Nat)
    (colPreds : List (Nat × List (Option Int))) : Except MergeErr ResultDf :=
  match work_items[work_item_num]? with
  | none => .error .badWorkItemIndex
  | some wi =>
    .ok (colPreds.foldl (fun d cp => locAssign d wi.peptides cp.1 cp.2) df)

/-- C3 (counterexample): an existing reuse directory whose peptide file is
missing or unreadable is NOT skipped with a warning — `load_results` raises
and the error propagates, aborting the run. -/
theorem reuse_load_missing_file_aborts :
    reuseLoop [⟨"prior", true, none, some [], []⟩] ⟨[], []⟩ =
      (.error .missingPeptides, []) := rfl

/-- C3 (amended): only a reuse directory that does not exist is skipped, with
a warning, the run continuing on the remaining directories; a missing or
unreadable peptide file inside an existing directory raises an error that
aborts the run. -/
theorem reuse_load_skip_and_abort (d : StoreDir) (ds : List StoreDir)
    (rdf : ResultDf) :
    (d.name ≠ "" → d.present = false →
      reuseLoop (d :: ds) rdf =
        ((reuseLoop ds rdf).1, d.name :: (reuseLoop ds rdf).2)) ∧
    (d.name ≠ "" → d.present = true → d.peptidesFile = none →
      reuseLoop (d :: ds) rdf = (.error .missingPeptides, [])) := by
  constructor
  · intro hname hpres
    simp [reuseLoop, hname, hpres]
  · intro hname hpres hpep
    simp [reuseLoop, hname, hpres, load_results, hpep]

theorem reuse_load_skip_and_abort_witness :
    (reuseLoop [⟨"gone", false, none, none, []⟩] ⟨[], []⟩ =
      ((reuseLoop [] ⟨[], []⟩).1, "gone" :: (reuseLoop [] ⟨[], []⟩).2)) ∧
    (reuseLoop [⟨"bad", true, none, some [], []⟩] ⟨[], []⟩ =
      (.error .missingPeptides, [])) :=
  ⟨(reuse_load_skip_and_abort ⟨"gone", false, none, none, []⟩ [] ⟨[], []⟩).1
      (by decide) rfl,
   (reuse_load_skip_and_abort ⟨"bad", true, none, some [], []⟩ [] ⟨[], []⟩).2
      (by decide) rfl rfl⟩

lemma lookupPred_none_of_not_mem : ∀ (ls : List Nat) (ps : List (Option Int))
    (r : Nat), r ∉ ls → lookupPred ls ps r = none := by
  intro ls
  induction ls with
  | nil => intro ps r _; cases ps <;> rfl
  | cons l ls ih =>
    intro ps r hr
    cases ps with
    | nil => rfl
    | cons p ps =>
      have h1 : l ≠ r := fun h => hr (by simp [h])
      rw [lookupPred, if_neg h1]
      exact ih ps r (fun h => hr (by simp [h]))

lemma lookupPred_assignVals_not_mem : ∀ (index : List Nat)
    (vals : List (Option Int)) (labels : List Nat) (preds : List (Option Int))
    (r : Nat), r ∉ labels →
    lookupPred index (assignVals index vals labels preds) r =
      lookupPred index vals r := by
  intro index
  induction index with
  | nil => intro vals labels preds r _; cases vals <;> rfl
  | cons i is ih =>
    intro vals labels preds r hr
    cases vals with
    | nil => rfl
    | cons v vs =>
      rw [assignVals]
      by_cases hi : i = r
      · subst hi
        rw [lookupPred, if_pos rfl, lookupPred, if_pos rfl,
          lookupPred_none_of_not_mem labels preds i hr]
      · rw [lookupPred, if_neg hi, lookupPred, if_neg hi]
        exact ih vs labels preds r hr

lemma alookup_map_assign (c c' : Nat) (g : List (Option Int) → List (Option Int)) :
    ∀ cols : List (Nat × List (Option Int)),
    alookup c (cols.map (fun cv => if cv.1 = c' then (cv.1, g cv.2) else cv)) =
      (alookup c cols).map (fun vals => if c = c' then g vals else vals) := by
  intro cols
  induction cols with
  | nil => rfl
  | cons e es ih =>
    by_cases h1 : e.1 = c'
    · by_cases h2 : e.1 = c
      · have hcc : c = c' := by rw [← h2, h1]
        simp [alookup, h1, h2, hcc]
      · have hcc : ¬ c' = c := by rw [← h1]; exact h2
        simp [alookup, h1, h2, hcc, ih]
    · by_cases h2 : e.1 = c
      · have hcc : ¬ c = c' := by rw [← h2]; exact h1
        simp [alookup, h1, h2, hcc]
      · simp [alookup, h1, h2, ih]

lemma cellValue_locAssign_frame (df : ResultDf) (labels : List Nat) (c' : Nat)
    (preds : List (Option Int)) (c r : Nat) (h : c ≠ c' ∨ r ∉ labels) :
    cellValue (locAssign df labels c' preds) c r = cellValue df c r := by
  unfold cellValue locAssign
  simp only
  rw [alookup_map_assign c c' (fun vals => assignVals df.index vals labels preds)
    df.columns]
  cases halk : alookup c df.columns with
  | none => rfl
  | some vals =>
    simp only [Option.map_some', Option.some_bind]
    rcases h with hne | hnr
    · rw [if_neg hne]
    · by_cases hcc : c = c'
      · rw [if_pos hcc]
        exact lookupPred_assignVals_not_mem df.index vals labels preds r hnr
      · rw [if_neg hcc]

lemma cellValue_merge_fold_frame (peptides : List Nat) (c r : Nat) :
    ∀ (colPreds : List (Nat × List (Option Int))) (df : ResultDf),
    ((∀ p ∈ colPreds, p.1 ≠ c) ∨ r ∉ peptides) →
    cellValue (colPreds.foldl (fun d cp => locAssign d peptides cp.1 cp.2) df) c r =
      cellValue df c r := by
  intro colPreds
  induction colPreds with
  | nil => intro df _; rfl
  | cons cp rest ih =>
    intro df h
    rw [List.foldl_cons]
    have hstep : cellValue (locAssign df peptides cp.1 cp.2) c r = cellValue df c r := by
      apply cellValue_locAssign_frame
      rcases h with hcols | hrow
      · left
        have := hcols cp (by simp)
        omega
      · right; exact hrow
    rw [← hstep]
    apply ih
    rcases h with hcols | hrow
    · left; intro p hp; exact hcols p (by simp [hp])
    · right; exact hrow

/-- C10: merging one `(work_item_num, column to array)` result only writes the
cells at the originating work item's peptide rows in the columns present in
the mapping; every cell outside those rows and columns keeps its value. -/
theorem merge_result_frame (work_items : List WorkItem) (df : ResultDf)
    (work_item_num : Nat) (colPreds : List (Nat × List (Option Int)))
    (wi : WorkItem) (c r : Nat)
    (hwi : work_items[work_item_num]? = some wi)
    (hout : (∀ p ∈ colPreds, p.1 ≠ c) ∨ r ∉ wi.peptides) :
    ∃ df', mergeOne work_items df work_item_num colPreds = .ok df' ∧
      cellValue df' c r = cellValue df c r := by
  refine ⟨colPreds.foldl (fun d cp => locAssign d wi.peptides cp.1 cp.2) df, ?_, ?_⟩
  · unfold mergeOne
    rw [hwi]
  · exact cellValue_merge_fold_frame wi.peptides c r colPreds df hout

theorem merge_result_frame_witness :
    ∃ df', mergeOne [⟨[1], [5], 0⟩] ⟨[5, 6], [(2, [none, some 4])]⟩ 0
        [(2, [some 9])] = .ok df' ∧
      cellValue df' 2 6 = cellValue ⟨[5, 6], [(2, [none, some 4])]⟩ 2 6 :=
  merge_result_frame [⟨[1], [5], 0⟩] ⟨[5, 6], [(2, [none, some 4])]⟩ 0
    [(2, [some 9])] ⟨[1], [5], 0⟩ 2 6 rfl (Or.inr (by decide))

lemma lookupPred_append_not_mem : ∀ (pre : List Nat) (preVals : List (Option Int))
    (ls : List Nat) (ps : List (Option Int)) (r : Nat),
    r ∉ pre → pre.length = preVals.length →
    lookupPred (pre ++ ls) (preVals ++ ps) r = lookupPred ls ps r := by
  intro pre
  induction pre with
  | nil =>
    intro preVals ls ps r _ hlen
    have : preVals = [] := List.eq_nil_of_length_eq_zero hlen.symm
    subst this
    rfl
  | cons a pre ih =>
    intro preVals ls ps r hr hlen
    cases preVals with
    | nil => simp at hlen
    | cons pv preVals =>
      have ha : a ≠ r := fun h => hr (by simp [h])
      simp only [List.cons_append]
      rw [lookupPred, if_neg ha]
      exact ih preVals ls ps r (fun h => hr (by simp [h])) (by simpa using hlen)

lemma assignVals_self_aux : ∀ (idx : List Nat) (vals tgt : List (Option Int))
    (pre : List Nat) (preVals : List (Option Int)),
    (pre ++ idx).Nodup → pre.length = preVals.length →
    idx.length = vals.length → idx.length = tgt.length →
    assignVals idx vals (pre ++ idx) (preVals ++ tgt) = tgt := by
  intro idx
  induction idx with
  | nil =>
    intro vals tgt pre preVals _ _ _ hlen
    have : tgt = [] := List.eq_nil_of_length_eq_zero hlen.symm
    subst this
    cases vals <;> rfl
  | cons r rs ih =>
    intro vals tgt pre preVals hnd hlenpre hlenv hlent
    cases vals with
    | nil => simp at hlenv
    | cons v vs =>
      cases tgt with
      | nil => simp at hlent
      | cons t ts =>
        have hdisj : List.Disjoint pre (r :: rs) :=
          (List.nodup_append.mp hnd).2.2
        have hrpre : r ∉ pre := fun h => hdisj h (by simp)
        have hhead : lookupPred (pre ++ r :: rs) (preVals ++ t :: ts) r = some t := by
          rw [lookupPred_append_not_mem pre preVals _ _ r hrpre hlenpre]
          rw [lookupPred, if_pos rfl]
        rw [assignVals, hhead]
        have hassoc : pre ++ r :: rs = (pre ++ [r]) ++ rs := by simp
        have hassocV : preVals ++ t :: ts = (preVals ++ [t]) ++ ts := by simp
        rw [hassoc, hassocV]
        rw [ih vs ts (pre ++ [r]) (preVals ++ [t]) (by rw [← hassoc]; exact hnd)
          (by simp [hlenpre]) (by simpa using hlenv) (by simpa using hlent)]

lemma assignVals_self (index : List Nat) (vals tgt : List (Option Int))
    (hnd : index.Nodup) (hv : index.length = vals.length)
    (ht : index.length = tgt.length) :
    assignVals index vals index tgt = tgt := by
  have := assignVals_self_aux index vals tgt [] [] (by simpa using hnd) rfl hv ht
  simpa using this

lemma alookup_map_keyfun (k : Nat) (g : Nat → List (Option Int)) :
    ∀ l : List (Nat × List (Option Int)),
    alookup k (l.map (fun e => (e.1, g e.1))) =
      (alookup k l).map (fun _ => g k) := by
  intro l
  induction l with
  | nil => rfl
  | cons e es ih =>
    by_cases h : e.1 = k
    · simp [alookup, h]
    · simp [alookup, h, ih]

lemma alookup_mem_nodup : ∀ (l : List (Nat × List (Option Int)))
    (cv : Nat × List (Option Int)),
    (l.map Prod.fst).Nodup → cv ∈ l → alookup cv.1 l = some cv.2 := by
  intro l
  induction l with
  | nil => intro cv _ h; simp at h
  | cons e es ih =>
    intro cv hnd hmem
    rcases List.mem_cons.mp hmem with rfl | hmem'
    · rw [alookup, if_pos rfl]
    · have hne : e.1 ≠ cv.1 := by
        intro h
        have h1 : e.1 ∉ es.map Prod.fst := (List.nodup_cons.mp (by simpa using hnd)).1
        exact h1 (h ▸ List.mem_map_of_mem Prod.fst hmem')
      rw [alookup, if_neg hne]
      exact ih cv (List.nodup_cons.mp (by simpa using hnd)).2 hmem'

lemma alookup_storeOf_files (df : ResultDf) (cv : Nat × List (Option Int))
    (hcols : (df.columns.map Prod.fst).Nodup) (hmem : cv ∈ df.columns) :
    alookup cv.1 ((df.columns.map Prod.fst).map (fun c => write_col df c)) =
      some cv.2 := by
  rw [List.map_map]
  have hfun : (fun c => write_col df c) ∘ Prod.fst =
      (fun e : Nat × List (Option Int) =>
        (e.1, (fun c => (alookup c df.columns).getD []) e.1)) := by
    funext e
    rfl
  rw [hfun, alookup_map_keyfun cv.1 (fun c => (alookup c df.columns).getD [])
    df.columns]
  rw [alookup_mem_nodup df.columns cv hcols hmem]
  simp

lemma loadFold_fresh : ∀ (post pre : List (Nat × List (Option Int)))
    (files : List (Nat × List (Option Int))) (index : List Nat),
    index.Nodup →
    (((pre ++ post).map Prod.fst).Nodup) →
    (∀ cv ∈ post, alookup cv.1 files = some cv.2) →
    (∀ cv ∈ post, cv.2.length = index.length) →
    loadFold files index none
      ⟨index, pre ++ post.map (fun cv => (cv.1, index.map (fun _ => none)))⟩
      (post.map (fun cv => (cv.1, cv.1))) =
    .ok ⟨index, pre ++ post⟩ := by
  intro post
  induction post with
  | nil =>
    intro pre files index _ _ _ _
    simp [loadFold]
  | cons cv rest ih =>
    intro pre files index hidx hnd hfiles hlen
    have hfst : (pre ++ cv :: rest).map Prod.fst =
        pre.map Prod.fst ++ cv.1 :: rest.map Prod.fst := by simp
    rw [hfst] at hnd
    have hdisj : List.Disjoint (pre.map Prod.fst) (cv.1 :: rest.map Prod.fst) :=
      (List.nodup_append.mp hnd).2.2
    have hcvpre : cv.1 ∉ pre.map Prod.fst := fun h => hdisj h (by simp)
    have hcvrest : cv.1 ∉ rest.map Prod.fst :=
      (List.nodup_cons.mp (List.nodup_append.mp hnd).2.1).1
    simp only [List.map_cons, loadFold, hfiles cv (by simp)]
    have hmapfun : ∀ (l : List (Nat × List (Option Int))),
        (∀ e ∈ l, e.1 ≠ cv.1) →
        l.map (fun e => if e.1 = cv.1
          then (e.1, assignVals index e.2 index cv.2) else e) = l := by
      intro l
      induction l with
      | nil => intro _; rfl
      | cons e es ihl =>
        intro hl
        rw [List.map_cons, if_neg (hl e (by simp)),
          ihl (fun e' he' => hl e' (by simp [he']))]
    have hloc : locAssign
        ⟨index, pre ++ (cv.1, index.map (fun _ => (none : Option Int))) ::
          rest.map (fun d => (d.1, index.map (fun _ => (none : Option Int))))⟩
        index cv.1 cv.2 =
        ⟨index, (pre ++ [cv]) ++
          rest.map (fun d => (d.1, index.map (fun _ => (none : Option Int))))⟩ := by
      unfold locAssign
      congr 1
      simp only [List.map_append, List.map_cons, eq_self_iff_true, if_true]
      rw [hmapfun pre (fun e he => fun h =>
        hcvpre (h ▸ List.mem_map_of_mem Prod.fst he))]
      rw [hmapfun (rest.map (fun d => (d.1, index.map (fun _ => (none : Option Int)))))
        (by
          intro e he
          rcases List.mem_map.mp he with ⟨d, hd, rfl⟩
          intro h
          apply hcvrest
          rw [← h]
          show d.1 ∈ List.map Prod.fst rest
          exact List.mem_map_of_mem Prod.fst hd)]
      rw [assignVals_self index _ cv.2 hidx (by simp) (hlen cv (by simp)).symm]
      simp
    rw [hloc]
    have hres := ih (pre ++ [cv]) files index hidx
      (by simpa using hnd)
      (fun d hd => hfiles d (by simp [hd]))
      (fun d hd => hlen d (by simp [hd]))
    rw [show (pre ++ [cv]) ++ rest = pre ++ cv :: rest by simp] at hres
    exact hres

/-- C6: writing every column of a ResultMatrix to the store and loading the
store back with the identical peptide and column sets reproduces the matrix
exactly, including the positions of the NaN (`none`) entries. -/
theorem store_round_trip (df : ResultDf)
    (hidx : df.index.Nodup)
    (hcols : (df.columns.map Prod.fst).Nodup)
    (hlen : ∀ cv ∈ df.columns, cv.2.length = df.index.length) :
    load_results (storeOf df) none = .ok df := by
  have hfiles : ∀ cv ∈ df.columns,
      alookup cv.1 ((df.columns.map Prod.fst).map (fun c => write_col df c)) =
        some cv.2 := fun cv hcv => alookup_storeOf_files df cv hcols hcv
  have hmain := loadFold_fresh df.columns []
    ((df.columns.map Prod.fst).map (fun c => write_col df c)) df.index hidx
    (by simpa using hcols) hfiles hlen
  rw [List.nil_append, List.nil_append] at hmain
  show loadFold ((df.columns.map Prod.fst).map (fun c => write_col df c))
      df.index none
      ⟨df.index, (df.columns.map (fun cv => (cv.1, cv.1))).map
        (fun cp => (cp.1, df.index.map (fun _ => (none : Option Int))))⟩
      (df.columns.map (fun cv => (cv.1, cv.1))) = .ok df
  rw [List.map_map] at hmain
  rw [List.map_map, List.map_map]
  exact hmain

theorem store_round_trip_witness :
    load_results (storeOf ⟨[1, 2], [(5, [some 3, none])]⟩) none =
      .ok ⟨[1, 2], [(5, [some 3, none])]⟩ :=
  store_round_trip ⟨[1, 2], [(5, [some 3, none])]⟩ (by decide) (by decide)
    (by decide)
